import Mathlib

/-!
Verification of the image-service media routes (`src/routes/mediaRoutes.ts`
and its duplicated full version holding the company-logo routes) against the
natural-language specification.

Strings are modelled as `List Char` (`Str`), JavaScript objects as structures,
the `uploads/` and `uploads/logos/` directories as association lists from file
name to content, and the `NodeCache` instance as an association list from key
to cached value.  `Array.prototype.sort` (a stable comparison sort) is
modelled by a stable insertion sort `jsSortBy`.
-/

namespace ImageService

/-- JavaScript strings, modelled as lists of characters. -/
abbrev Str := List Char

/-- JavaScript `a || b` for an optional string field: `undefined` and the
empty string are falsy. -/
def jsOr (v : Option Str) (dflt : Str) : Str :=
  match v with
  | some s => if s = [] then dflt else s
  | none => dflt

/-- JavaScript truthiness of an optional string field (`undefined` and `""`
are falsy). -/
def jsTruthy (v : Option Str) : Bool :=
  match v with
  | some s => !(s == [])
  | none => false

/-- Model of Node's `path.extname`: the suffix of the base name starting at
its last `'.'`; empty when there is no dot or when the only/last dot is the
leading character of the base name (dot-files have no extension). -/
def extname (s : Str) : Str :=
  let b := (s.reverse.takeWhile (fun c => !(c == '/'))).reverse
  let tail := b.reverse.takeWhile (fun c => !(c == '.'))
  if tail.length = b.length then []
  else if tail.length + 1 = b.length then []
  else '.' :: tail.reverse

/-- Model of the record built for each uploaded file
(interface `MediaFile` in `src/interfaces/MediaFile.ts`). -/
structure MediaFile where
  id : Str
  entityId : Str
  entityType : Str
  companyId : Str
  filename : Str
  originalName : Str
  mimeType : Str
  size : Nat
  position : Nat
  createdAt : Nat
deriving DecidableEq, Repr

/-- One step of the `reduce` in the upload handler: if an element with the
same `position` already exists in the accumulator, replace it in place
(`acc[index] = curr`), otherwise append (`acc.push(curr)`). -/
def upsertByPosition (acc : List MediaFile) (curr : MediaFile) : List MediaFile :=
  match acc.findIdx? (fun item => item.position == curr.position) with
  | some i => acc.set i curr
  | none => acc ++ [curr]

/-- Stable insertion of `x` into `l`: `x` goes after every `y` with
`le y x` and before the first `y` with `¬ le y x`. -/
def insertLe (le : α → α → Bool) (x : α) : List α → List α
  | [] => [x]
  | y :: ys => if le y x then y :: insertLe le x ys else x :: y :: ys

/-- Model of JavaScript `Array.prototype.sort` with comparator `le`
(a stable comparison sort), implemented as stable insertion sort. -/
def jsSortBy (le : α → α → Bool) (l : List α) : List α :=
  l.foldl (fun acc x => insertLe le x acc) []

/-- The deduplicating single pass of the upload handler:
`[...existingMetadata, ...mediaFiles].reduce(..., [])`. -/
def dedupeByPosition (l : List MediaFile) : List MediaFile :=
  l.foldl upsertByPosition []

/-- `combinedMetadata` from the upload handler: concatenate the existing
aggregate with the new batch, deduplicate by `position` (replace in place or
append), then `sort((a, b) => a.position - b.position)`. -/
def combinedMetadata (existingMetadata mediaFiles : List MediaFile) : List MediaFile :=
  jsSortBy (fun a b => a.position ≤ b.position)
    (dedupeByPosition (existingMetadata ++ mediaFiles))

/-- Recursive form of `upsertByPosition`, used in proofs. -/
def replaceOrAppend (acc : List MediaFile) (curr : MediaFile) : List MediaFile :=
  match acc with
  | [] => [curr]
  | a :: rest =>
      if a.position = curr.position then curr :: rest
      else a :: replaceOrAppend rest curr

theorem upsertByPosition_eq_replaceOrAppend (acc : List MediaFile) (curr : MediaFile) :
    upsertByPosition acc curr = replaceOrAppend acc curr := by
  induction acc with
  | nil => rfl
  | cons a rest ih =>
      by_cases h : a.position = curr.position
      · simp [upsertByPosition, replaceOrAppend, List.findIdx?_cons, h]
      · have hb : (a.position == curr.position) = false := by
          simpa using h
        rw [upsertByPosition, List.findIdx?_cons]
        rw [replaceOrAppend]
        simp only [hb, if_neg, Bool.false_eq_true, if_false, List.findIdx?_succ, h]
        rw [← ih, upsertByPosition]
        cases hfi : List.findIdx? (fun item => item.position == curr.position) rest with
        | none => simp [hfi]
        | some i => simp [hfi]

theorem replaceOrAppend_find? (acc : List MediaFile) (x : MediaFile) (p : Nat) :
    (replaceOrAppend acc x).find? (fun y => y.position == p)
      = if x.position = p then some x else acc.find? (fun y => y.position == p) := by
  induction acc with
  | nil =>
      by_cases h : x.position = p
      · simp [replaceOrAppend, List.find?, h]
      · have hb : (x.position == p) = false := by simpa using h
        simp [replaceOrAppend, List.find?, h, hb]
  | cons a rest ih =>
      by_cases hax : a.position = x.position
      · rw [replaceOrAppend, if_pos hax]
        by_cases hxp : x.position = p
        · simp [List.find?, hxp]
        · have hb : (x.position == p) = false := by simpa using hxp
          have hap : (a.position == p) = false := by
            rw [hax]; exact hb
          simp [List.find?, hxp, hb, hap]
      · rw [replaceOrAppend, if_neg hax]
        by_cases hap : a.position = p
        · have hxp : ¬ x.position = p := by omega
          simp [List.find?, hap, hxp]
        · have hapb : (a.position == p) = false := by simpa using hap
          simp [List.find?, hapb, ih]

theorem replaceOrAppend_mem_pos (acc : List MediaFile) (x : MediaFile) (p : Nat) :
    p ∈ (replaceOrAppend acc x).map (fun y => y.position)
      ↔ p ∈ acc.map (fun y => y.position) ∨ p = x.position := by
  induction acc with
  | nil => simp [replaceOrAppend, eq_comm]
  | cons a rest ih =>
      by_cases hax : a.position = x.position
      · rw [replaceOrAppend, if_pos hax]
        simp only [List.map_cons, List.mem_cons, hax]
        tauto
      · rw [replaceOrAppend, if_neg hax]
        simp only [List.map_cons, List.mem_cons, ih]
        tauto

theorem replaceOrAppend_nodup_pos (acc : List MediaFile) (x : MediaFile)
    (h : (acc.map (fun y => y.position)).Nodup) :
    ((replaceOrAppend acc x).map (fun y => y.position)).Nodup := by
  induction acc with
  | nil => simp [replaceOrAppend]
  | cons a rest ih =>
      simp only [List.map_cons, List.nodup_cons] at h
      by_cases hax : a.position = x.position
      · rw [replaceOrAppend, if_pos hax]
        simp only [List.map_cons, List.nodup_cons]
        exact ⟨by rw [← hax]; exact h.1, h.2⟩
      · rw [replaceOrAppend, if_neg hax]
        simp only [List.map_cons, List.nodup_cons]
        refine ⟨?_, ih h.2⟩
        rw [replaceOrAppend_mem_pos]
        rintro (hmem | hmem)
        · exact h.1 hmem
        · exact hax hmem

theorem dedupeByPosition_append_singleton (l : List MediaFile) (x : MediaFile) :
    dedupeByPosition (l ++ [x]) = replaceOrAppend (dedupeByPosition l) x := by
  rw [dedupeByPosition, List.foldl_append, ← dedupeByPosition,
    List.foldl_cons, List.foldl_nil, upsertByPosition_eq_replaceOrAppend]

theorem dedupeByPosition_find? (l : List MediaFile) (p : Nat) :
    (dedupeByPosition l).find? (fun y => y.position == p)
      = l.reverse.find? (fun y => y.position == p) := by
  induction l using List.reverseRecOn with
  | nil => rfl
  | append_singleton l x ih =>
      rw [dedupeByPosition_append_singleton, replaceOrAppend_find?,
        List.reverse_append]
      by_cases hxp : x.position = p
      · simp [List.find?, hxp]
      · have hb : (x.position == p) = false := by simpa using hxp
        simp [List.find?, hxp, hb, ih]

theorem dedupeByPosition_mem_pos (l : List MediaFile) (p : Nat) :
    p ∈ (dedupeByPosition l).map (fun y => y.position)
      ↔ p ∈ l.map (fun y => y.position) := by
  induction l using List.reverseRecOn with
  | nil => rfl
  | append_singleton l x ih =>
      rw [dedupeByPosition_append_singleton, replaceOrAppend_mem_pos, ih]
      simp

theorem dedupeByPosition_nodup_pos (l : List MediaFile) :
    ((dedupeByPosition l).map (fun y => y.position)).Nodup := by
  induction l using List.reverseRecOn with
  | nil => exact List.nodup_nil
  | append_singleton l x ih =>
      rw [dedupeByPosition_append_singleton]
      exact replaceOrAppend_nodup_pos _ _ ih

theorem find?_eq_some_of_mem_of_nodup (l : List MediaFile) (x : MediaFile)
    (hnd : (l.map (fun y => y.position)).Nodup) (hx : x ∈ l) :
    l.find? (fun y => y.position == x.position) = some x := by
  induction l with
  | nil => cases hx
  | cons a rest ih =>
      simp only [List.map_cons, List.nodup_cons] at hnd
      rcases List.mem_cons.mp hx with rfl | hx'
      · simp [List.find?]
      · have hax : (a.position == x.position) = false := by
          have : x.position ∈ rest.map (fun y => y.position) :=
            List.mem_map.mpr ⟨x, hx', rfl⟩
          have hne : a.position ≠ x.position := fun h => hnd.1 (h ▸ this)
          simpa using hne
        simp only [List.find?, hax]
        exact ih hnd.2 hx'

theorem insertLe_perm (le : α → α → Bool) (x : α) (l : List α) :
    (insertLe le x l).Perm (x :: l) := by
  induction l with
  | nil => exact List.Perm.refl _
  | cons y ys ih =>
      by_cases h : le y x
      · rw [insertLe, if_pos h]
        exact (ih.cons y).trans (List.Perm.swap x y ys)
      · rw [insertLe, if_neg h]

theorem jsSortBy_perm_aux (le : α → α → Bool) (l acc : List α) :
    (l.foldl (fun acc x => insertLe le x acc) acc).Perm (acc ++ l) := by
  induction l generalizing acc with
  | nil => simp
  | cons x xs ih =>
      rw [List.foldl_cons]
      refine (ih (insertLe le x acc)).trans ?_
      exact (List.Perm.append_right xs (insertLe_perm le x acc)).trans
        List.perm_middle.symm

theorem jsSortBy_perm (le : α → α → Bool) (l : List α) :
    (jsSortBy le l).Perm l := by
  simpa using jsSortBy_perm_aux le l []

theorem insertLe_pairwise (le : α → α → Bool)
    (htotal : ∀ a b, le a b = true ∨ le b a = true)
    (htrans : ∀ a b c, le a b = true → le b c = true → le a c = true)
    (x : α) (l : List α) (h : l.Pairwise (fun a b => le a b = true)) :
    (insertLe le x l).Pairwise (fun a b => le a b = true) := by
  induction l with
  | nil => simp [insertLe]
  | cons y ys ih =>
      rcases List.pairwise_cons.mp h with ⟨hy, hys⟩
      by_cases hyx : le y x
      · rw [insertLe, if_pos hyx]
        refine List.pairwise_cons.mpr ⟨?_, ih hys⟩
        intro z hz
        rcases List.mem_cons.mp ((insertLe_perm le x ys).mem_iff.mp hz) with rfl | hz'
        · exact hyx
        · exact hy z hz'
      · rw [insertLe, if_neg hyx]
        have hxy : le x y = true := by
          rcases htotal x y with h' | h'
          · exact h'
          · exact absurd h' hyx
        refine List.pairwise_cons.mpr ⟨?_, h⟩
        intro z hz
        rcases List.mem_cons.mp hz with rfl | hz'
        · exact hxy
        · exact htrans x y z hxy (hy z hz')

theorem jsSortBy_pairwise (le : α → α → Bool)
    (htotal : ∀ a b, le a b = true ∨ le b a = true)
    (htrans : ∀ a b c, le a b = true → le b c = true → le a c = true)
    (l : List α) :
    (jsSortBy le l).Pairwise (fun a b => le a b = true) := by
  suffices h : ∀ acc, acc.Pairwise (fun a b => le a b = true) →
      (l.foldl (fun acc x => insertLe le x acc) acc).Pairwise (fun a b => le a b = true) by
    exact h [] List.Pairwise.nil
  induction l with
  | nil => intro acc hacc; simpa using hacc
  | cons x xs ih =>
      intro acc hacc
      rw [List.foldl_cons]
      exact ih _ (insertLe_pairwise le htotal htrans x acc hacc)

/-- C1: for every existing aggregate list (possibly empty) and every non-empty
batch of new descriptors, the merge `combinedMetadata` performed on upload
returns a list that (i) contains a descriptor for exactly the `position`
values occurring across old and new, (ii) is strictly ascending by `position`
(hence has exactly one descriptor per distinct position), and (iii) keeps for
each position the last-occurring descriptor of `old ++ new` — so a new
descriptor replaces any old one at the same position, and a later batch
element with a duplicate position replaces an earlier one. -/
theorem claim_C1_merge (old new : List MediaFile) (hnew : new ≠ []) :
    (∀ p, (∃ x ∈ combinedMetadata old new, x.position = p)
        ↔ ∃ x ∈ old ++ new, x.position = p)
  ∧ (combinedMetadata old new).Pairwise (fun a b => a.position < b.position)
  ∧ ∀ x ∈ combinedMetadata old new,
      (old ++ new).reverse.find? (fun y => y.position == x.position) = some x := by
  have hperm : (combinedMetadata old new).Perm (dedupeByPosition (old ++ new)) :=
    jsSortBy_perm _ _
  have hnodup : ((combinedMetadata old new).map (fun y => y.position)).Nodup :=
    ((hperm.map (fun y => y.position)).nodup_iff).mpr
      (dedupeByPosition_nodup_pos (old ++ new))
  refine ⟨?_, ?_, ?_⟩
  · intro p
    have h1 : (∃ x ∈ combinedMetadata old new, x.position = p)
        ↔ ∃ x ∈ dedupeByPosition (old ++ new), x.position = p := by
      constructor
      · rintro ⟨x, hx, hp⟩; exact ⟨x, hperm.mem_iff.mp hx, hp⟩
      · rintro ⟨x, hx, hp⟩; exact ⟨x, hperm.mem_iff.mpr hx, hp⟩
    rw [h1]
    have h2 := dedupeByPosition_mem_pos (old ++ new) p
    simp only [List.mem_map] at h2
    exact h2
  · have hle : (combinedMetadata old new).Pairwise
        (fun a b => (fun a b : MediaFile => decide (a.position ≤ b.position)) a b = true) := by
      apply jsSortBy_pairwise
      · intro a b
        rcases Nat.le_total a.position b.position with h | h
        · left; simpa using h
        · right; simpa using h
      · intro a b c hab hbc
        simp only [decide_eq_true_eq] at *
        omega
    have hne : (combinedMetadata old new).Pairwise
        (fun a b => a.position ≠ b.position) :=
      List.pairwise_map.mp hnodup
    exact (hle.and hne).imp (fun h => by
      rcases h with ⟨h1, h2⟩
      simp only [decide_eq_true_eq] at h1
      omega)
  · intro x hx
    have hxD : x ∈ dedupeByPosition (old ++ new) := hperm.mem_iff.mp hx
    rw [← dedupeByPosition_find?]
    exact find?_eq_some_of_mem_of_nodup _ x (dedupeByPosition_nodup_pos _) hxD

/-- A sample descriptor used in witnesses: `i` makes descriptors
distinguishable, `p` is the position. -/
def sampleMF (i p : Nat) : MediaFile :=
  { id := [Nat.digitChar i], entityId := "E1".toList, entityType := "product".toList,
    companyId := "C1".toList, filename := "E1-0.png".toList, originalName := "a.png".toList,
    mimeType := "image/png".toList, size := i, position := p, createdAt := 0 }

/-- Witness for C1 at a concrete input: old aggregate holds positions 0 and 2,
the batch holds positions 0, 1, 1; the merge keeps the batch's descriptors at
positions 0 and 1 (the later duplicate winning) and the old one at 2, sorted. -/
theorem claim_C1_merge_witness :
    ([sampleMF 3 0, sampleMF 4 1, sampleMF 5 1] : List MediaFile) ≠ []
    ∧ combinedMetadata [sampleMF 1 0, sampleMF 2 2] [sampleMF 3 0, sampleMF 4 1, sampleMF 5 1]
        = [sampleMF 3 0, sampleMF 5 1, sampleMF 2 2]
    ∧ (combinedMetadata [sampleMF 1 0, sampleMF 2 2] [sampleMF 3 0, sampleMF 4 1, sampleMF 5 1]).Pairwise
        (fun a b => a.position < b.position) :=
  ⟨by decide, by decide,
    (claim_C1_merge [sampleMF 1 0, sampleMF 2 2]
      [sampleMF 3 0, sampleMF 4 1, sampleMF 5 1] (by decide)).2.1⟩

/-- Fuel-based little-endian decimal digits (kernel-computable). -/
def digitsAux : Nat → Nat → List Nat
  | 0, _ => []
  | fuel + 1, n => if n = 0 then [] else n % 10 :: digitsAux fuel (n / 10)

/-- Little-endian decimal digits of `n` (empty for 0). -/
def decDigits (n : Nat) : List Nat := digitsAux n n

theorem digitsAux_eq_digits (fuel n : Nat) (h : n ≤ fuel) :
    digitsAux fuel n = Nat.digits 10 n := by
  induction fuel generalizing n with
  | zero =>
      have : n = 0 := Nat.le_zero.mp h
      subst this; simp [digitsAux]
  | succ fuel ih =>
      rw [digitsAux]
      by_cases h0 : n = 0
      · simp [h0]
      · rw [if_neg h0]
        have hdiv : n / 10 ≤ fuel := by
          have := Nat.div_lt_self (Nat.pos_of_ne_zero h0) (by norm_num : (1:Nat) < 10)
          omega
        rw [ih (n / 10) hdiv,
          ← Nat.digits_def' (by norm_num : (1:Nat) < 10) (Nat.pos_of_ne_zero h0)]

theorem decDigits_eq_digits (n : Nat) : decDigits n = Nat.digits 10 n :=
  digitsAux_eq_digits n n le_rfl

/-- Model of JavaScript number-to-string conversion for a non-negative
integer (as in template literals such as `temp-${Date.now()}`). -/
def numToStr (n : Nat) : Str :=
  if n = 0 then ['0'] else (decDigits n).reverse.map Nat.digitChar

theorem numToStr_isDigit (n : Nat) : ∀ c ∈ numToStr n, c.isDigit = true := by
  have hd : ∀ d < 10, (Nat.digitChar d).isDigit = true := by decide
  intro c hc
  rw [numToStr] at hc
  by_cases h0 : n = 0
  · rw [if_pos h0] at hc
    simp only [List.mem_singleton] at hc
    subst hc; decide
  · rw [if_neg h0] at hc
    rcases List.mem_map.mp hc with ⟨d, hdm, rfl⟩
    rw [List.mem_reverse, decDigits_eq_digits] at hdm
    exact hd d (Nat.digits_lt_base (by norm_num) hdm)

theorem numToStr_ne_nil (n : Nat) : numToStr n ≠ [] := by
  rw [numToStr]
  by_cases h0 : n = 0
  · simp [h0]
  · rw [if_neg h0]
    intro hcon
    have hlen := congrArg List.length hcon
    simp only [List.length_map, List.length_reverse, decDigits_eq_digits,
      List.length_nil] at hlen
    exact (Nat.digits_ne_nil_iff_ne_zero.mpr h0)
      (List.eq_nil_of_length_eq_zero hlen)

theorem map_digitChar_inj {l1 l2 : List Nat} (h1 : ∀ d ∈ l1, d < 10)
    (h2 : ∀ d ∈ l2, d < 10)
    (h : l1.map Nat.digitChar = l2.map Nat.digitChar) : l1 = l2 := by
  have hinj : ∀ d < 10, ∀ e < 10, Nat.digitChar d = Nat.digitChar e → d = e := by decide
  induction l1 generalizing l2 with
  | nil => cases l2 with
    | nil => rfl
    | cons b bs => simp at h
  | cons a as ih =>
      cases l2 with
      | nil => simp at h
      | cons b bs =>
          simp only [List.map_cons, List.cons.injEq] at h
          have ha := h1 a (List.mem_cons_self a as)
          have hb := h2 b (List.mem_cons_self b bs)
          have := hinj a ha b hb h.1
          subst this
          rw [ih (fun d hd => h1 d (List.mem_cons_of_mem a hd))
            (fun d hd => h2 d (List.mem_cons_of_mem a hd)) h.2]

theorem numToStr_inj {a b : Nat} (h : numToStr a = numToStr b) : a = b := by
  have key : ∀ n : Nat, n ≠ 0 → numToStr n ≠ ['0'] := by
    intro n hn hcontra
    rw [numToStr, if_neg hn, decDigits_eq_digits] at hcontra
    cases hrv : (Nat.digits 10 n).reverse with
    | nil => rw [hrv] at hcontra; simp at hcontra
    | cons d ds =>
        rw [hrv] at hcontra
        simp only [List.map_cons, List.cons.injEq] at hcontra
        have hds : ds = [] := by simpa using hcontra.2
        have hdlt : d < 10 := by
          apply Nat.digits_lt_base (by norm_num)
          rw [← List.mem_reverse, hrv]
          exact List.mem_cons_self _ _
        have hd0 : d = 0 := by
          have h10 : ∀ e < 10, Nat.digitChar e = '0' → e = 0 := by decide
          exact h10 d hdlt hcontra.1
        have hdig : Nat.digits 10 n = [0] := by
          have h' := congrArg List.reverse hrv
          rw [List.reverse_reverse] at h'
          rw [h', hds, hd0]
          rfl
        have hzero := Nat.ofDigits_digits 10 n
        rw [hdig] at hzero
        simp [Nat.ofDigits] at hzero
        exact hn hzero.symm
  by_cases ha : a = 0 <;> by_cases hb : b = 0
  · omega
  · subst ha
    have h0 : numToStr 0 = ['0'] := by simp [numToStr]
    rw [h0] at h
    exact absurd h.symm (key b hb)
  · subst hb
    have h0 : numToStr 0 = ['0'] := by simp [numToStr]
    rw [h0] at h
    exact absurd h (key a ha)
  · rw [numToStr, numToStr, if_neg ha, if_neg hb] at h
    have hda : ∀ d ∈ (decDigits a).reverse, d < 10 := by
      intro d hd
      rw [List.mem_reverse, decDigits_eq_digits] at hd
      exact Nat.digits_lt_base (by norm_num) hd
    have hdb : ∀ d ∈ (decDigits b).reverse, d < 10 := by
      intro d hd
      rw [List.mem_reverse, decDigits_eq_digits] at hd
      exact Nat.digits_lt_base (by norm_num) hd
    have := map_digitChar_inj hda hdb h
    have hd : Nat.digits 10 a = Nat.digits 10 b := by
      have := congrArg List.reverse this
      simpa [decDigits_eq_digits] using this
    calc a = Nat.ofDigits 10 (Nat.digits 10 a) := (Nat.ofDigits_digits 10 a).symm
      _ = Nat.ofDigits 10 (Nat.digits 10 b) := by rw [hd]
      _ = b := Nat.ofDigits_digits 10 b

/-- One binary part of a multipart upload (multer's `file` object). -/
structure FilePart where
  originalname : Str
  mimetype : Str
  size : Nat
deriving DecidableEq, Repr

/-- Content of a file in the `uploads/` directory: an uploaded binary, or the
per-entity consolidated metadata JSON document. -/
inductive FileContent where
  | bin (f : FilePart)
  | metaJson (l : List MediaFile)
deriving DecidableEq, Repr

/-- The descriptor built for a company logo (the handler's `mediaFile` object
in `POST /company-logo`; it has no `position` field). -/
structure LogoMeta where
  id : Str
  entityId : Str
  entityType : Str
  companyId : Str
  filename : Str
  originalName : Str
  mimeType : Str
  size : Nat
  createdAt : Nat
deriving DecidableEq, Repr

/-- A value stored in the `NodeCache` instance `mediaCache` (slot entries hold
a `MediaFile`, `company-logo-…` entries hold a logo descriptor). -/
inductive CacheVal where
  | media (m : MediaFile)
  | logo (m : LogoMeta)
deriving DecidableEq, Repr

/-- The `companyId` property of a cached object (the delete handler reads it
from whatever object sits at the slot key). -/
def CacheVal.companyId : CacheVal → Str
  | media m => m.companyId
  | logo m => m.companyId

/-- Content of a file in the `uploads/logos/` directory. -/
inductive LogoContent where
  | bin
  | metaJson (m : LogoMeta)
deriving DecidableEq, Repr

/-- One entry of the `uploads/logos/` directory: name, modification time, and
content. -/
structure LogoEntry where
  name : Str
  mtime : Nat
  content : LogoContent
deriving DecidableEq, Repr

/-- The service state: the `uploads/` directory, the `uploads/logos/`
directory, and the in-memory `mediaCache`. -/
structure ServerState where
  uploads : List (Str × FileContent)
  logos : List LogoEntry
  cache : List (Str × CacheVal)
deriving DecidableEq, Repr

/-- Write a file (or cache entry): overwrite in place if the key exists,
append otherwise. -/
def upsertAssoc (l : List (Str × α)) (k : Str) (v : α) : List (Str × α) :=
  match l with
  | [] => [(k, v)]
  | e :: rest => if e.1 = k then (k, v) :: rest else e :: upsertAssoc rest k v

/-- Write a file into the logos directory: overwrite in place (updating the
modification time) if the name exists, append otherwise. -/
def upsertLogo (l : List LogoEntry) (name : Str) (mtime : Nat) (c : LogoContent) :
    List LogoEntry :=
  match l with
  | [] => [⟨name, mtime, c⟩]
  | e :: rest =>
      if e.name = name then ⟨name, mtime, c⟩ :: rest
      else e :: upsertLogo rest name mtime c

/-- Look up a logo-directory entry by name. -/
def lookupLogo (l : List LogoEntry) (name : Str) : Option LogoContent :=
  (l.find? (fun e => e.name == name)).map (fun e => e.content)

/-- One element of the `GET /entity/:entityId` response array. -/
structure FileDetail where
  id : Str
  filename : Str
  originalName : Str
  mimeType : Str
  url : Str
  position : Nat
deriving DecidableEq, Repr

/-- The response surface of the routes, as far as the claims observe it. -/
inductive Response where
  | badRequest
  | forbidden
  | notFound
  | internalError
  | okFiles (files : List MediaFile)
  | okList (l : List FileDetail)
  | served (name : Str)
  | okDeleted
  | okLogo (m : LogoMeta)
  | okLogoMeta (m : Option LogoMeta) (url : Str)
deriving DecidableEq, Repr

/-- `ALLOWED_MIME_TYPES` from `mediaRoutes.ts`. -/
def ALLOWED_MIME_TYPES : List Str :=
  ["image/jpeg".toList, "image/png".toList, "image/gif".toList, "image/webp".toList,
   "video/mp4".toList, "video/quicktime".toList, "video/x-msvideo".toList,
   "video/x-ms-wmv".toList, "video/webm".toList]

/-- The multipart body of `POST /upload` as the handlers see it
(`req.body` fields plus the file parts). -/
structure UploadReq where
  entityId : Option Str
  entityType : Option Str
  companyId : Option Str
  position : Option Str
  files : List FilePart
deriving DecidableEq, Repr

/-- The multer `storage.filename` callback:
`` `${req.body.entityId || uuidv4()}-${req.body.position || 0}${path.extname(file.originalname)}` ``. -/
def storageFilename (req : UploadReq) (freshId : Str) (f : FilePart) : Str :=
  jsOr req.entityId freshId ++ ('-' :: jsOr req.position ("0".toList))
    ++ extname f.originalname

/-- A file saved by multer: the part plus the disk name it was stored under. -/
structure SavedFile where
  file : FilePart
  filename : Str
deriving DecidableEq, Repr

/-- First element of the uuid supply, or the empty string. -/
def headOrNil (l : List Str) : Str :=
  match l with
  | [] => []
  | a :: _ => a

/-- The write multer's disk storage performs for one allowed part. -/
def multerStep (req : UploadReq) (st : ServerState) (uuid : Str) (f : FilePart) :
    ServerState :=
  { st with
      uploads := upsertAssoc st.uploads (storageFilename req uuid f)
        (FileContent.bin f) }

/-- The `upload.array('files')` middleware: each part is MIME-checked by
`fileFilter` and, if allowed, written to `uploads/` under the name computed
by `storage.filename` — all before the route handler runs.  A rejected MIME
type aborts with an error (`none`); multer then removes every file it stored
during the request, modelled here by each recursion level deleting the file
it wrote as the error propagates out (a pre-existing file that the write had
overwritten is unlinked with it, not restored). -/
def multerArray (req : UploadReq) :
    ServerState → List FilePart → List Str → ServerState × Option (List SavedFile)
  | st, [], _ => (st, some [])
  | st, f :: rest, uuids =>
      if ALLOWED_MIME_TYPES.contains f.mimetype then
        let st' := multerStep req st (headOrNil uuids) f
        match multerArray req st' rest uuids.tail with
        | (st'', some saved) =>
            (st'', some (⟨f, storageFilename req (headOrNil uuids) f⟩ :: saved))
        | (st'', none) =>
            ({ st'' with
                uploads := st''.uploads.filter
                  (fun e => !(e.1 == storageFilename req (headOrNil uuids) f)) },
              none)
      else (st, none)

/-- The `POST /upload` route handler body (after multer): validation, cache
population, and the read–merge–write of the per-entity aggregate. -/
def uploadHandler (st : ServerState) (req : UploadReq) (saved : List SavedFile)
    (ids : List Str) (now : Nat) : Response × ServerState :=
  if saved.length = 0 then (.badRequest, st)
  else if !(jsTruthy req.entityId && jsTruthy req.entityType && jsTruthy req.companyId) then
    (.badRequest, st)
  else
    let entityId := req.entityId.getD []
    let entityType := req.entityType.getD []
    let companyId := req.companyId.getD []
    let mediaFiles := saved.enum.map (fun p =>
      ({ id := ids.getD p.1 [], entityId := entityId, entityType := entityType,
         companyId := companyId, filename := p.2.filename,
         originalName := p.2.file.originalname, mimeType := p.2.file.mimetype,
         size := p.2.file.size, position := p.1, createdAt := now } : MediaFile))
    let cache' := mediaFiles.foldl
      (fun c m => upsertAssoc c (entityId ++ '-' :: numToStr m.position)
        (CacheVal.media m)) st.cache
    let existing :=
      match st.uploads.lookup (entityId ++ ".json".toList) with
      | some (.metaJson l) => l
      | _ => []
    let combined := combinedMetadata existing mediaFiles
    (.okFiles mediaFiles,
      { st with
          uploads := upsertAssoc st.uploads (entityId ++ ".json".toList)
            (.metaJson combined),
          cache := cache' })

/-- The full `POST /upload` pipeline: multer middleware, then the handler.
`uuids` supplies `uuidv4()` results for the filename callback, `ids` for the
descriptor ids, `now` is the request time. -/
def postUpload (st : ServerState) (req : UploadReq) (uuids ids : List Str)
    (now : Nat) : Response × ServerState :=
  match multerArray req st req.files uuids with
  | (st', some saved) => uploadHandler st' req saved ids now
  | (st', none) => (.internalError, st')

/-- The listing entry built by `GET /entity/:entityId`. -/
def toFileDetail (m : MediaFile) : FileDetail :=
  { id := m.id, filename := m.filename, originalName := m.originalName,
    mimeType := m.mimeType, url := "/media/file/".toList ++ m.filename,
    position := m.position }

/-- `GET /entity/:entityId`: read the aggregate document, map to details,
sort by position; an absent document yields an empty list, a document that
fails to parse yields a 500. -/
def getEntity (st : ServerState) (entityId : Str) : Response :=
  match st.uploads.lookup (entityId ++ ".json".toList) with
  | none => .okList []
  | some (.metaJson l) =>
      .okList (jsSortBy (fun a b => a.position ≤ b.position) (l.map toFileDetail))
  | some (.bin _) => .internalError

/-- `GET /file/:filename`: serve the file if present, 404 otherwise. -/
def getFile (st : ServerState) (filename : Str) : Response :=
  match st.uploads.lookup filename with
  | none => .notFound
  | some _ => .served filename

/-- `DELETE /:entityId/:position?companyId=…`: 400 on a missing/empty
`companyId`; 403 when a cache entry for the slot exists with a different
`companyId`; otherwise delete every file whose name starts with
`` `${entityId}-${position}` `` and drop the cache entry for the slot. -/
def deleteMedia (st : ServerState) (entityId position companyId : Str) :
    Response × ServerState :=
  if companyId = [] then (.badRequest, st)
  else
    let cacheKey := entityId ++ '-' :: position
    let doDelete : Response × ServerState :=
      (.okDeleted,
        { st with
            uploads := st.uploads.filter
              (fun e => !((entityId ++ '-' :: position).isPrefixOf e.1)),
            cache := st.cache.filter (fun e => !(e.1 == cacheKey)) })
    match st.cache.lookup cacheKey with
    | some v => if v.companyId ≠ companyId then (.forbidden, st) else doDelete
    | none => doDelete

/-- The logo staging name assigned by `logoStorage.filename`:
`` `temp-${Date.now()}${path.extname(file.originalname)}` ``. -/
def logoTempFilename (now : Nat) (originalname : Str) : Str :=
  "temp-".toList ++ numToStr now ++ extname originalname

/-- The tenant's logo name stem `` `logo-${companyId}` ``, used both to build
the canonical file name and as the match stem in delete/fetch scans. -/
def logoStem (companyId : Str) : Str := "logo-".toList ++ companyId

/-- The inputs of one `POST /company-logo` request: the body `companyId`,
the file part, the `Date.now()` used for the staging name, the `uuidv4()`
for the descriptor, and the request time (modification time of writes). -/
structure LogoUploadIn where
  companyId : Option Str
  originalname : Str
  mimetype : Str
  size : Nat
  tempStamp : Nat
  freshId : Str
  now : Nat
deriving DecidableEq, Repr

/-- The staging key a logo upload request receives. -/
def stagingKeyOf (r : LogoUploadIn) : Str :=
  logoTempFilename r.tempStamp r.originalname

/-- The descriptor `POST /company-logo` builds for the uploaded file. -/
def logoMetaOf (r : LogoUploadIn) (companyId : Str) : LogoMeta :=
  { id := r.freshId, entityId := companyId, entityType := "company-logo".toList,
    companyId := companyId,
    filename := logoStem companyId ++ extname r.originalname,
    originalName := r.originalname, mimeType := r.mimetype,
    size := r.size, createdAt := r.now }

/-- `POST /company-logo`: multer stages the file under the temp name, then
the handler deletes every file starting with `` `logo-${companyId}` ``,
renames the staged file to the canonical name, caches the descriptor, and
writes the logo metadata JSON document. -/
def postCompanyLogo (st : ServerState) (r : LogoUploadIn) : Response × ServerState :=
  if !(ALLOWED_MIME_TYPES.contains r.mimetype) then (.internalError, st)
  else
    let tempName := stagingKeyOf r
    let logos1 := upsertLogo st.logos tempName r.now .bin
    if !(jsTruthy r.companyId) then (.badRequest, { st with logos := logos1 })
    else
      let companyId := r.companyId.getD []
      let newFilename := logoStem companyId ++ extname r.originalname
      let logos2 := logos1.filter (fun e => !((logoStem companyId).isPrefixOf e.name))
      let logos3 := (logos2.filter (fun e => !(e.name == tempName)))
        ++ [⟨newFilename, r.now, .bin⟩]
      let meta := logoMetaOf r companyId
      let logos4 := upsertLogo logos3 (logoStem companyId ++ ".json".toList) r.now
        (.metaJson meta)
      (.okLogo meta,
        { st with
            logos := logos4,
            cache := upsertAssoc st.cache ("company-logo-".toList ++ companyId)
              (.logo meta) })

/-- The directory scan both logo fetch routes perform:
`filename.startsWith('logo-' + companyId) && !filename.endsWith('.json')`. -/
def logoMatches (logos : List LogoEntry) (companyId : Str) : List LogoEntry :=
  logos.filter (fun e =>
    (logoStem companyId).isPrefixOf e.name && !((".json".toList).isSuffixOf e.name))

/-- `GET /company-logo/:companyId` (authenticated): 404 when nothing matches,
otherwise take `files[0]` — the FIRST match in directory order; with
`?metadata=true` return the metadata document plus a derived URL instead. -/
def getCompanyLogo (st : ServerState) (companyId : Str) (wantMeta : Bool) :
    Response :=
  if companyId = [] then .badRequest
  else
    match logoMatches st.logos companyId with
    | [] => .notFound
    | e :: _ =>
        if wantMeta then
          match lookupLogo st.logos (logoStem companyId ++ ".json".toList) with
          | some (.metaJson m) =>
              .okLogoMeta (some m)
                ("/api/media/company-logo/".toList ++ companyId ++ "/file".toList)
          | some .bin => .internalError
          | none =>
              .okLogoMeta none
                ("/api/media/company-logo/".toList ++ companyId ++ "/file".toList)
        else .served e.name

/-- `GET /company-logo/file/:companyId` (unauthenticated): take the part of
the parameter before the first dot, 404 when nothing matches, otherwise sort
the matches by modification time descending (`(a, b) => b.time - a.time`)
and serve the first, i.e. the most recently modified one. -/
def getCompanyLogoFile (st : ServerState) (param : Str) : Response :=
  let companyId := param.takeWhile (fun c => !(c == '.'))
  match logoMatches st.logos companyId with
  | [] => .notFound
  | files =>
      match jsSortBy (fun a b => b.mtime ≤ a.mtime) files with
      | [] => .notFound
      | e :: _ => .served e.name

theorem lookup_filter_of_pred {α : Type} (l : List (Str × α)) (pred : Str → Bool)
    (k : Str) (hk : pred k = true) :
    (l.filter (fun e => !(pred e.1))).lookup k = none := by
  induction l with
  | nil => rfl
  | cons e rest ih =>
      by_cases hp : pred e.1
      · simp [List.filter, hp, ih]
      · have hne : (k == e.1) = false := by
          simp only [beq_eq_false_iff_ne, ne_eq]
          intro h
          rw [h] at hk
          exact absurd hk (by simp [hp])
        simp [List.filter, hp, List.lookup, hne, ih]

theorem lookup_filter_of_not_pred {α : Type} (l : List (Str × α)) (pred : Str → Bool)
    (k : Str) (hk : pred k = false) :
    (l.filter (fun e => !(pred e.1))).lookup k = l.lookup k := by
  induction l with
  | nil => rfl
  | cons e rest ih =>
      by_cases hke : k = e.1
      · subst hke
        simp [List.filter, hk, List.lookup, ih]
      · have hne : (k == e.1) = false := by simpa using hke
        by_cases hp : pred e.1
        · simp [List.filter, hp, List.lookup, hne, ih]
        · simp [List.filter, hp, List.lookup, hne, ih]

theorem lookup_upsertAssoc {α : Type} (l : List (Str × α)) (k k' : Str) (v : α) :
    (upsertAssoc l k v).lookup k' = if k' = k then some v else l.lookup k' := by
  induction l with
  | nil =>
      by_cases h : k' = k
      · simp [upsertAssoc, List.lookup, h]
      · have hne : (k' == k) = false := by simpa using h
        simp [upsertAssoc, List.lookup, h, hne]
  | cons e rest ih =>
      by_cases hek : e.1 = k
      · rw [upsertAssoc, if_pos hek]
        by_cases h : k' = k
        · simp [List.lookup, h]
        · have hne : (k' == k) = false := by simpa using h
          have hne' : (k' == e.1) = false := by
            rw [hek]; exact hne
          simp [List.lookup, hne, hne', h]
      · rw [upsertAssoc, if_neg hek]
        by_cases hke : k' = e.1
        · have h : ¬ k' = k := by rw [hke]; exact hek
          have hbe : (k' == e.1) = true := by simpa using hke
          simp [List.lookup, hbe, h]
        · have hne : (k' == e.1) = false := by simpa using hke
          simp [List.lookup, hne, ih]

theorem isPrefixOf_append_self (x t : Str) : x.isPrefixOf (x ++ t) = true :=
  List.isPrefixOf_iff_prefix.mpr (List.prefix_append x t)

theorem not_isPrefixOf_of_head_ne (a b : Char) (as bs : Str) (h : a ≠ b) :
    (a :: as).isPrefixOf (b :: bs) = false := by
  rw [Bool.eq_false_iff]
  intro hp
  rcases List.isPrefixOf_iff_prefix.mp hp with ⟨t, ht⟩
  simp only [List.cons_append, List.cons.injEq] at ht
  exact h ht.1

theorem not_isPrefixOf_mid_ne (e : Str) (a b : Char) (p r : Str) (h : a ≠ b) :
    ((e ++ a :: p).isPrefixOf (e ++ b :: r)) = false := by
  rw [Bool.eq_false_iff]
  intro hp
  rcases List.isPrefixOf_iff_prefix.mp hp with ⟨t, ht⟩
  rw [List.append_assoc] at ht
  have := List.append_cancel_left ht
  simp only [List.cons_append, List.cons.injEq] at this
  exact h this.1

/-- C5: with an asserted non-empty `companyId`, the delete request is
Forbidden exactly when a cache entry for the slot exists whose recorded
`companyId` differs; a matching entry or an absent entry lets the delete
proceed, and the authorization outcome never reads the durable stores (the
response is unchanged under any `uploads`/`logos` contents). -/
theorem claim_C5_delete_authorization (st : ServerState)
    (entityId position companyId : Str) (hc : companyId ≠ []) :
    ((deleteMedia st entityId position companyId).1 = .forbidden
        ↔ ∃ v, st.cache.lookup (entityId ++ '-' :: position) = some v
            ∧ v.companyId ≠ companyId)
  ∧ (∀ v, st.cache.lookup (entityId ++ '-' :: position) = some v →
        v.companyId = companyId →
        (deleteMedia st entityId position companyId).1 = .okDeleted)
  ∧ (st.cache.lookup (entityId ++ '-' :: position) = none →
        (deleteMedia st entityId position companyId).1 = .okDeleted)
  ∧ (∀ uploads' logos',
        (deleteMedia { uploads := uploads', logos := logos', cache := st.cache }
            entityId position companyId).1
          = (deleteMedia st entityId position companyId).1) := by
  have hmain : ∀ (up : List (Str × FileContent)) (lg : List LogoEntry),
      (deleteMedia { uploads := up, logos := lg, cache := st.cache }
          entityId position companyId).1
        = (deleteMedia st entityId position companyId).1 := by
    intro up lg
    unfold deleteMedia
    rw [if_neg hc, if_neg hc]
    cases hl : st.cache.lookup (entityId ++ '-' :: position) with
    | none => simp [hl]
    | some v =>
        simp only [hl]
        by_cases hv : v.companyId ≠ companyId
        · simp [hv]
        · simp [hv]
  refine ⟨?_, ?_, ?_, hmain⟩
  · unfold deleteMedia
    rw [if_neg hc]
    cases hl : st.cache.lookup (entityId ++ '-' :: position) with
    | none => simp [hl]
    | some v =>
        simp only [hl]
        by_cases hv : v.companyId ≠ companyId
        · rw [if_pos hv]
          exact ⟨fun _ => ⟨v, rfl, hv⟩, fun _ => rfl⟩
        · rw [if_neg hv]
          constructor
          · intro h
            exact Response.noConfusion h
          · rintro ⟨w, hw, hwne⟩
            cases hw
            exact absurd hwne hv
  · intro v hv hveq
    unfold deleteMedia
    rw [if_neg hc]
    simp [hv, hveq]
  · intro hnone
    unfold deleteMedia
    rw [if_neg hc]
    simp [hnone]

/-- A concrete state for the C5 witness: the cache holds a slot entry owned
by company `C2`. -/
def c5State : ServerState :=
  { uploads := [("E1-0.png".toList, .bin ⟨"a.png".toList, "image/png".toList, 9⟩)],
    logos := [],
    cache := [("E1-0".toList, .media (sampleMF 1 0))] }

/-- Witness for C5: `sampleMF` records owner `C1`, so asserting `C2` is
rejected as Forbidden while asserting `C1` (the recorded owner) succeeds,
and a slot with no cache entry also succeeds. -/
theorem claim_C5_delete_authorization_witness :
    (deleteMedia c5State ("E1".toList) ("0".toList) ("C2".toList)).1 = .forbidden
    ∧ (deleteMedia c5State ("E1".toList) ("0".toList) ("C1".toList)).1 = .okDeleted
    ∧ (deleteMedia c5State ("E1".toList) ("7".toList) ("C2".toList)).1 = .okDeleted :=
  ⟨(claim_C5_delete_authorization c5State ("E1".toList) ("0".toList) ("C2".toList)
      (by decide)).1.mpr ⟨.media (sampleMF 1 0), by decide, by decide⟩,
   (claim_C5_delete_authorization c5State ("E1".toList) ("0".toList) ("C1".toList)
      (by decide)).2.1 (.media (sampleMF 1 0)) (by decide) (by decide),
   (claim_C5_delete_authorization c5State ("E1".toList) ("7".toList) ("C2".toList)
      (by decide)).2.2.1 (by decide)⟩

theorem deleteMedia_authorized_eq (st : ServerState)
    (entityId position companyId : Str) (hc : companyId ≠ [])
    (hauth : st.cache.lookup (entityId ++ '-' :: position) = none
      ∨ ∃ v, st.cache.lookup (entityId ++ '-' :: position) = some v
          ∧ v.companyId = companyId) :
    deleteMedia st entityId position companyId
      = (.okDeleted,
          { st with
              uploads := st.uploads.filter
                (fun e => !((entityId ++ '-' :: position).isPrefixOf e.1)),
              cache := st.cache.filter
                (fun e => !(e.1 == entityId ++ '-' :: position)) }) := by
  unfold deleteMedia
  rw [if_neg hc]
  rcases hauth with hnone | ⟨v, hv, hveq⟩
  · simp [hnone]
  · simp [hv, hveq]

/-- C6: an authorized delete of `(entityId, position)` removes the
prefix-matching binaries (so fetch-by-name for the slot's stored name, with
any extension, now answers Not Found) and exactly the slot's cache entry,
while the entity's aggregate document — and hence the listing — is left
unchanged, so a listed position can survive its file's deletion. -/
theorem claim_C6_delete_effect (st : ServerState)
    (entityId position companyId : Str) (hc : companyId ≠ [])
    (hauth : st.cache.lookup (entityId ++ '-' :: position) = none
      ∨ ∃ v, st.cache.lookup (entityId ++ '-' :: position) = some v
          ∧ v.companyId = companyId) :
    (deleteMedia st entityId position companyId).1 = .okDeleted
  ∧ (∀ ext, getFile (deleteMedia st entityId position companyId).2
        ((entityId ++ '-' :: position) ++ ext) = .notFound)
  ∧ (deleteMedia st entityId position companyId).2.cache.lookup
        (entityId ++ '-' :: position) = none
  ∧ (∀ k, k ≠ entityId ++ '-' :: position →
        (deleteMedia st entityId position companyId).2.cache.lookup k
          = st.cache.lookup k)
  ∧ (deleteMedia st entityId position companyId).2.uploads.lookup
        (entityId ++ ".json".toList) = st.uploads.lookup (entityId ++ ".json".toList)
  ∧ getEntity (deleteMedia st entityId position companyId).2 entityId
      = getEntity st entityId := by
  rw [deleteMedia_authorized_eq st entityId position companyId hc hauth]
  have hjson : ((entityId ++ '-' :: position).isPrefixOf
      (entityId ++ ".json".toList)) = false := by
    have h1 : ".json".toList = '.' :: "json".toList := rfl
    rw [h1]
    exact not_isPrefixOf_mid_ne entityId '-' '.' position ("json".toList) (by decide)
  have hagg : (st.uploads.filter
        (fun e => !((entityId ++ '-' :: position).isPrefixOf e.1))).lookup
        (entityId ++ ".json".toList) = st.uploads.lookup (entityId ++ ".json".toList) :=
    lookup_filter_of_not_pred st.uploads _ _ hjson
  refine ⟨rfl, ?_, ?_, ?_, hagg, ?_⟩
  · intro ext
    have hpref : ((entityId ++ '-' :: position).isPrefixOf
        ((entityId ++ '-' :: position) ++ ext)) = true :=
      isPrefixOf_append_self _ _
    have := lookup_filter_of_pred st.uploads
      (fun s => (entityId ++ '-' :: position).isPrefixOf s) _ hpref
    simp only [getFile, this]
  · exact lookup_filter_of_pred st.cache
      (fun s => s == entityId ++ '-' :: position) _ (by simp)
  · intro k hk
    exact lookup_filter_of_not_pred st.cache
      (fun s => s == entityId ++ '-' :: position) k (by simpa using hk)
  · unfold getEntity
    rw [hagg]

/-- A concrete state for the delete witnesses: entity `E1` has binaries at
positions 1, 10 and 2, an aggregate document, and a warm cache entry for
slot `E1-1` owned by `C1`. -/
def c6State : ServerState :=
  { uploads := [("E1-1.png".toList, .bin ⟨"a.png".toList, "image/png".toList, 9⟩),
                ("E1-10.png".toList, .bin ⟨"b.png".toList, "image/png".toList, 8⟩),
                ("E1-2.png".toList, .bin ⟨"c.png".toList, "image/png".toList, 7⟩),
                ("E1.json".toList, .metaJson [sampleMF 1 1])],
    logos := [],
    cache := [("E1-1".toList, .media (sampleMF 1 1))] }

/-- Witness for C6 at `c6State`: deleting `(E1, 1)` as `C1` succeeds, the
slot's file is gone, the slot's cache entry is gone, and the aggregate
document and listing are untouched. -/
theorem claim_C6_delete_effect_witness :
    (deleteMedia c6State ("E1".toList) ("1".toList) ("C1".toList)).1 = .okDeleted
    ∧ getFile (deleteMedia c6State ("E1".toList) ("1".toList) ("C1".toList)).2
        (("E1".toList ++ '-' :: "1".toList) ++ ".png".toList) = .notFound
    ∧ (deleteMedia c6State ("E1".toList) ("1".toList) ("C1".toList)).2.cache.lookup
        ("E1".toList ++ '-' :: "1".toList) = none
    ∧ getEntity (deleteMedia c6State ("E1".toList) ("1".toList) ("C1".toList)).2 ("E1".toList)
        = getEntity c6State ("E1".toList) := by
  have h := claim_C6_delete_effect c6State ("E1".toList) ("1".toList) ("C1".toList)
    (by decide) (Or.inr ⟨.media (sampleMF 1 1), by decide, by decide⟩)
  exact ⟨h.1, h.2.1 (".png".toList), h.2.2.1, h.2.2.2.2.2⟩

/-- C9: an authorized delete removes from the uploads directory exactly the
entries whose name starts with `` `${entityId}-${position}` `` — a plain
string-prefix test, so names whose decimal position merely extends the
requested one also match — while only the single cache entry for the
requested slot is deleted. -/
theorem claim_C9_delete_prefix_scope (st : ServerState)
    (entityId position companyId : Str) (hc : companyId ≠ [])
    (hauth : st.cache.lookup (entityId ++ '-' :: position) = none
      ∨ ∃ v, st.cache.lookup (entityId ++ '-' :: position) = some v
          ∧ v.companyId = companyId) :
    (deleteMedia st entityId position companyId).1 = .okDeleted
  ∧ (∀ e, e ∈ st.uploads →
        (e ∈ (deleteMedia st entityId position companyId).2.uploads
          ↔ ((entityId ++ '-' :: position).isPrefixOf e.1) = false))
  ∧ (∀ e, e ∈ (deleteMedia st entityId position companyId).2.uploads →
        e ∈ st.uploads)
  ∧ (deleteMedia st entityId position companyId).2.cache.lookup
        (entityId ++ '-' :: position) = none
  ∧ (∀ k, k ≠ entityId ++ '-' :: position →
        (deleteMedia st entityId position companyId).2.cache.lookup k
          = st.cache.lookup k) := by
  rw [deleteMedia_authorized_eq st entityId position companyId hc hauth]
  refine ⟨rfl, ?_, ?_, ?_, ?_⟩
  · intro e he
    simp only [List.mem_filter, Bool.not_eq_true']
    constructor
    · intro h
      exact h.2
    · intro h
      exact ⟨he, h⟩
  · intro e he
    exact (List.mem_filter.mp he).1
  · exact lookup_filter_of_pred st.cache
      (fun s => s == entityId ++ '-' :: position) _ (by simp)
  · intro k hk
    exact lookup_filter_of_not_pred st.cache
      (fun s => s == entityId ++ '-' :: position) k (by simpa using hk)

/-- Witness for C9 at `c6State`: deleting `(E1, 1)` removes `E1-1.png` AND
`E1-10.png` (its name extends the prefix `E1-1`) while `E1-2.png` and the
aggregate document `E1.json` survive. -/
theorem claim_C9_delete_prefix_scope_witness :
    (("E1".toList ++ '-' :: "1".toList).isPrefixOf ("E1-10.png".toList)) = true
    ∧ ("E1-1.png".toList, FileContent.bin ⟨"a.png".toList, "image/png".toList, 9⟩)
        ∉ (deleteMedia c6State ("E1".toList) ("1".toList) ("C1".toList)).2.uploads
    ∧ ("E1-10.png".toList, FileContent.bin ⟨"b.png".toList, "image/png".toList, 8⟩)
        ∉ (deleteMedia c6State ("E1".toList) ("1".toList) ("C1".toList)).2.uploads
    ∧ ("E1-2.png".toList, FileContent.bin ⟨"c.png".toList, "image/png".toList, 7⟩)
        ∈ (deleteMedia c6State ("E1".toList) ("1".toList) ("C1".toList)).2.uploads
    ∧ ("E1.json".toList, FileContent.metaJson [sampleMF 1 1])
        ∈ (deleteMedia c6State ("E1".toList) ("1".toList) ("C1".toList)).2.uploads := by
  have h := claim_C9_delete_prefix_scope c6State ("E1".toList) ("1".toList) ("C1".toList)
    (by decide) (Or.inr ⟨.media (sampleMF 1 1), by decide, by decide⟩)
  refine ⟨by decide, ?_, ?_, ?_, ?_⟩
  · intro hmem
    exact absurd ((h.2.1 _ (by decide)).mp hmem) (by decide)
  · intro hmem
    exact absurd ((h.2.1 _ (by decide)).mp hmem) (by decide)
  · exact (h.2.1 _ (by decide)).mpr (by decide)
  · exact (h.2.1 _ (by decide)).mpr (by decide)

/-- The `(position, storedName)` pairs of an upload response. -/
def responseSlots (r : Response) : List (Nat × Str) :=
  match r with
  | .okFiles l => l.map (fun m => (m.position, m.filename))
  | _ => []

/-- The empty initial state. -/
def emptyState : ServerState := { uploads := [], logos := [], cache := [] }

/-- The C2 scenario request: two files `a.png`, `b.png` for
`entityId=E1, entityType=product, companyId=C1`, no `position` body field. -/
def c2Req : UploadReq :=
  { entityId := some ("E1".toList), entityType := some ("product".toList),
    companyId := some ("C1".toList), position := none,
    files := [⟨"a.png".toList, "image/png".toList, 100⟩,
              ⟨"b.png".toList, "image/png".toList, 200⟩] }

/-- C2 evaluated at its own concrete scenario: the filename callback uses
`req.body.position || 0` — not the per-file index — so BOTH descriptors get
stored name `E1-0.png` while their `position` fields are 0 and 1; the second
descriptor's stored name is not the `E1-1.png` that
`f(entityId, position, extension)` would give. -/
theorem claim_C2_storedName_eval :
    responseSlots (postUpload emptyState c2Req [] ["i0".toList, "i1".toList] 0).1
      = [(0, "E1-0.png".toList), (1, "E1-0.png".toList)]
    ∧ "E1-0.png".toList ≠ "E1-1.png".toList := by decide

theorem multerArray_cases (req : UploadReq) (files : List FilePart) :
    ∀ (uuids : List Str) (st : ServerState),
    (∀ st1 saved, multerArray req st files uuids = (st1, some saved) →
        st1.cache = st.cache ∧ st1.logos = st.logos
        ∧ ∀ k, st1.uploads.lookup k = st.uploads.lookup k
            ∨ ∃ f, st1.uploads.lookup k = some (FileContent.bin f))
  ∧ (∀ st1, multerArray req st files uuids = (st1, none) →
        st1.cache = st.cache ∧ st1.logos = st.logos
        ∧ ∀ k, st1.uploads.lookup k = st.uploads.lookup k
            ∨ st1.uploads.lookup k = none) := by
  induction files with
  | nil =>
      intro uuids st
      constructor
      · intro st1 saved hm
        have heq : (st, some ([] : List SavedFile)) = (st1, some saved) := hm
        cases heq
        exact ⟨rfl, rfl, fun k => Or.inl rfl⟩
      · intro st1 hm
        have heq : (st, some ([] : List SavedFile)) = (st1, none) := hm
        injection heq with h1 h2
        cases h2
  | cons f rest ih =>
      intro uuids st
      by_cases hmime : ALLOWED_MIME_TYPES.contains f.mimetype
      · have heq : multerArray req st (f :: rest) uuids
            = (match multerArray req (multerStep req st (headOrNil uuids) f)
                  rest uuids.tail with
              | (st'', some saved) =>
                  (st'', some (⟨f, storageFilename req (headOrNil uuids) f⟩ :: saved))
              | (st'', none) =>
                  ({ st'' with
                      uploads := st''.uploads.filter
                        (fun e => !(e.1 == storageFilename req (headOrNil uuids) f)) },
                    none)) := by
          rw [multerArray, if_pos hmime]
        rcases hrec : multerArray req (multerStep req st (headOrNil uuids) f)
          rest uuids.tail with ⟨st'', r⟩
        rw [hrec] at heq
        rcases ih uuids.tail (multerStep req st (headOrNil uuids) f) with ⟨ihok, iherr⟩
        cases r with
        | some saved' =>
            constructor
            · intro st1 saved hm
              rw [heq] at hm
              injection hm with h1 h2
              subst h1
              rcases ihok st'' saved' hrec with ⟨hc, hl, hu⟩
              refine ⟨hc, hl, ?_⟩
              intro k
              rcases hu k with h | hbin
              · rw [h]
                have hstep : (multerStep req st (headOrNil uuids) f).uploads.lookup k
                    = if k = storageFilename req (headOrNil uuids) f
                      then some (FileContent.bin f) else st.uploads.lookup k :=
                  lookup_upsertAssoc st.uploads _ k _
                rw [hstep]
                by_cases hk : k = storageFilename req (headOrNil uuids) f
                · exact Or.inr ⟨f, by rw [if_pos hk]⟩
                · exact Or.inl (by rw [if_neg hk])
              · exact Or.inr hbin
            · intro st1 hm
              rw [heq] at hm
              injection hm with h1 h2
              cases h2
        | none =>
            constructor
            · intro st1 saved hm
              rw [heq] at hm
              injection hm with h1 h2
              cases h2
            · intro st1 hm
              rw [heq] at hm
              injection hm with h1 h2
              subst h1
              rcases iherr st'' hrec with ⟨hc, hl, hu⟩
              refine ⟨hc, hl, ?_⟩
              intro k
              by_cases hk : k = storageFilename req (headOrNil uuids) f
              · right
                subst hk
                exact lookup_filter_of_pred st''.uploads
                  (fun s => s == storageFilename req (headOrNil uuids) f) _ (by simp)
              · have hfk : (st''.uploads.filter
                    (fun e => !(e.1 == storageFilename req (headOrNil uuids) f))).lookup k
                    = st''.uploads.lookup k :=
                  lookup_filter_of_not_pred st''.uploads
                    (fun s => s == storageFilename req (headOrNil uuids) f) k
                    (by simpa using hk)
                rcases hu k with h | h
                · left
                  rw [hfk, h]
                  have hstep : (multerStep req st (headOrNil uuids) f).uploads.lookup k
                      = if k = storageFilename req (headOrNil uuids) f
                        then some (FileContent.bin f) else st.uploads.lookup k :=
                    lookup_upsertAssoc st.uploads _ k _
                  rw [hstep, if_neg hk]
                · right
                  rw [hfk]
                  exact h
      · have heq : multerArray req st (f :: rest) uuids = (st, none) := by
          rw [multerArray, if_neg hmime]
        constructor
        · intro st1 saved hm
          rw [heq] at hm
          injection hm with h1 h2
          cases h2
        · intro st1 hm
          rw [heq] at hm
          injection hm with h1 h2
          subst h1
          exact ⟨rfl, rfl, fun k => Or.inl rfl⟩

/-- C3 as amended: a validation-failing upload mutates nothing in the
handler itself, but the middleware's effects differ by case.  (a) A request
with no file parts is answered 400 with the state fully untouched.  (b) A
request whose files all carry allowed MIME types but which is missing
`entityId`, `entityType` or `companyId` is answered 400 with no cache entry,
no logos change and no handler write: every uploads key it changed holds a
binary that multer had already stored before the rejection — and since the
stored name's extension comes from the untrusted original name, such a write
can overwrite an existing file, including ANOTHER entity's aggregate
document (the witness stores `x.json` for `E1` over `E1-0.json`, entity
`E1-0`'s aggregate).  (c) A request carrying a file with a disallowed MIME
type is answered 500 via the error path, with every file multer wrote during
the request removed again, so each uploads key is either unchanged or gone
and cache and logos are untouched. -/
theorem claim_C3_validation_amended (st : ServerState) (req : UploadReq)
    (uuids ids : List Str) (now : Nat) :
    (req.files = [] → postUpload st req uuids ids now = (.badRequest, st))
  ∧ (∀ st1 saved, multerArray req st req.files uuids = (st1, some saved) →
      (saved = []
        ∨ (!(jsTruthy req.entityId && jsTruthy req.entityType
              && jsTruthy req.companyId)) = true) →
      (postUpload st req uuids ids now).1 = .badRequest
      ∧ (postUpload st req uuids ids now).2 = st1
      ∧ st1.cache = st.cache
      ∧ st1.logos = st.logos
      ∧ ∀ k, st1.uploads.lookup k = st.uploads.lookup k
          ∨ ∃ f, st1.uploads.lookup k = some (FileContent.bin f))
  ∧ (∀ st1, multerArray req st req.files uuids = (st1, none) →
      (postUpload st req uuids ids now).1 = .internalError
      ∧ (postUpload st req uuids ids now).2 = st1
      ∧ st1.cache = st.cache
      ∧ st1.logos = st.logos
      ∧ ∀ k, st1.uploads.lookup k = st.uploads.lookup k
          ∨ st1.uploads.lookup k = none) := by
  refine ⟨?_, ?_, ?_⟩
  · intro hfiles
    unfold postUpload
    rw [hfiles]
    rfl
  · intro st1 saved hm hval
    have hhandler : uploadHandler st1 req saved ids now = (.badRequest, st1) := by
      by_cases hs : saved.length = 0
      · rw [uploadHandler, if_pos hs]
      · rcases hval with hnil | hbool
        · exact absurd (by rw [hnil]; rfl) hs
        · rw [uploadHandler, if_neg hs, if_pos hbool]
    have hpost : postUpload st req uuids ids now = (.badRequest, st1) := by
      rw [postUpload, hm]
      exact hhandler
    rcases (multerArray_cases req req.files uuids st).1 st1 saved hm with ⟨hc, hl, hu⟩
    exact ⟨by rw [hpost], by rw [hpost], hc, hl, hu⟩
  · intro st1 hm
    have hpost : postUpload st req uuids ids now = (.internalError, st1) := by
      rw [postUpload, hm]
    rcases (multerArray_cases req req.files uuids st).2 st1 hm with ⟨hc, hl, hu⟩
    exact ⟨by rw [hpost], by rw [hpost], hc, hl, hu⟩

/-- The C3 counterexample request: one allowed file but no `entityType`. -/
def c3Req : UploadReq :=
  { entityId := some ("E1".toList), entityType := none,
    companyId := some ("C1".toList), position := none,
    files := [⟨"a.png".toList, "image/png".toList, 100⟩] }

/-- Counterexample to C3 as stated: this validation-failing request (missing
`entityType`) is answered 400, yet a binary HAS been written to the store —
`uploads/` went from empty to holding `E1-0.png` — because `upload.array`
runs before the handler's field validation. -/
theorem claim_C3_counterexample :
    (postUpload emptyState c3Req ["u0".toList] ["i0".toList] 0).1 = .badRequest
    ∧ (postUpload emptyState c3Req ["u0".toList] ["i0".toList] 0).2.uploads
        = [("E1-0.png".toList, FileContent.bin ⟨"a.png".toList, "image/png".toList, 100⟩)] := by
  decide

/-- A state holding only entity `E1-0`'s aggregate document `E1-0.json`. -/
def c3AggState : ServerState :=
  { uploads := [("E1-0.json".toList, .metaJson [sampleMF 1 0])],
    logos := [], cache := [] }

/-- A field-missing upload request with no file parts. -/
def c3NoFilesReq : UploadReq :=
  { entityId := some ("E1".toList), entityType := none,
    companyId := some ("C1".toList), position := none, files := [] }

/-- A field-missing upload request whose allowed-MIME file is named
`x.json`, so multer stores it as `E1-0.json`. -/
def c3JsonReq : UploadReq :=
  { entityId := some ("E1".toList), entityType := none,
    companyId := some ("C1".toList), position := none,
    files := [⟨"x.json".toList, "image/png".toList, 50⟩] }

/-- A field-missing upload request carrying a disallowed-MIME file. -/
def c3BadMimeReq : UploadReq :=
  { entityId := some ("E1".toList), entityType := none,
    companyId := some ("C1".toList), position := none,
    files := [⟨"x.exe".toList, "application/x-exe".toList, 10⟩] }

/-- Witness for the amended C3, exercising all three cases: no files gives
400 with the state untouched; a field-missing request with an allowed file
named `x.json` gives 400, leaves the cache alone, but has overwritten entity
`E1-0`'s aggregate document with image bytes; a field-missing request with a
disallowed MIME type gives 500 with nothing left written. -/
theorem claim_C3_validation_amended_witness :
    postUpload c3AggState c3NoFilesReq [] [] 0 = (.badRequest, c3AggState)
    ∧ (postUpload c3AggState c3JsonReq ["u0".toList] ["i0".toList] 0).1 = .badRequest
    ∧ (postUpload c3AggState c3JsonReq ["u0".toList] ["i0".toList] 0).2.cache
        = c3AggState.cache
    ∧ (postUpload c3AggState c3JsonReq ["u0".toList] ["i0".toList] 0).2.uploads.lookup
        ("E1-0.json".toList)
        = some (.bin ⟨"x.json".toList, "image/png".toList, 50⟩)
    ∧ (postUpload c3AggState c3BadMimeReq [] [] 0).1 = .internalError
    ∧ (postUpload c3AggState c3BadMimeReq [] [] 0).2 = c3AggState := by
  have hA := (claim_C3_validation_amended c3AggState c3NoFilesReq [] [] 0).1 rfl
  have hB := (claim_C3_validation_amended c3AggState c3JsonReq
      ["u0".toList] ["i0".toList] 0).2.1
    { uploads := [("E1-0.json".toList,
        .bin ⟨"x.json".toList, "image/png".toList, 50⟩)],
      logos := [], cache := [] }
    [⟨⟨"x.json".toList, "image/png".toList, 50⟩, "E1-0.json".toList⟩]
    (by decide) (Or.inr (by decide))
  have hC := (claim_C3_validation_amended c3AggState c3BadMimeReq [] [] 0).2.2
    c3AggState (by decide)
  exact ⟨hA, hB.1, by rw [hB.2.1]; exact hB.2.2.1, by decide, hC.1, hC.2.1⟩

/-- A logos directory holding two duplicates for tenant `C1`: the first in
directory order has the OLDER modification time (5 versus 9). -/
def c4State : ServerState :=
  { uploads := [], cache := [],
    logos := [⟨"logo-C1.png".toList, 5, .bin⟩, ⟨"logo-C1.webp".toList, 9, .bin⟩] }

/-- Counterexample to C4 as stated: with two objects matching tenant `C1`'s
logo prefix, the authenticated fetch `GET /company-logo/:companyId` serves
`files[0]` — `logo-C1.png`, modification time 5 — even though the match
`logo-C1.webp` has the more recent modification time 9.  The most-recent
tie-break is NOT applied on this fetch path. -/
theorem claim_C4_counterexample :
    getCompanyLogo c4State ("C1".toList) false = .served ("logo-C1.png".toList)
    ∧ (⟨"logo-C1.webp".toList, 9, .bin⟩ : LogoEntry)
        ∈ logoMatches c4State.logos ("C1".toList)
    ∧ (⟨"logo-C1.png".toList, 5, .bin⟩ : LogoEntry)
        ∈ logoMatches c4State.logos ("C1".toList)
    ∧ 5 < 9 := by decide

/-- C4 as amended: the most-recent-modification tie-break holds only for the
unauthenticated file route `GET /company-logo/file/:companyId` — no match
gives Not Found, a single match is served, and among several matches a match
with maximal modification time is served.  The authenticated route
`GET /company-logo/:companyId` instead serves the first match in directory
order (and Not Found when none match). -/
theorem claim_C4_logo_fetch_amended (st : ServerState) (param : Str) :
    (logoMatches st.logos (param.takeWhile (fun ch => !(ch == '.'))) = [] →
        getCompanyLogoFile st param = .notFound)
  ∧ (∀ e, logoMatches st.logos (param.takeWhile (fun ch => !(ch == '.'))) = [e] →
        getCompanyLogoFile st param = .served e.name)
  ∧ (logoMatches st.logos (param.takeWhile (fun ch => !(ch == '.'))) ≠ [] →
        ∃ e ∈ logoMatches st.logos (param.takeWhile (fun ch => !(ch == '.'))),
          getCompanyLogoFile st param = .served e.name
          ∧ ∀ e' ∈ logoMatches st.logos (param.takeWhile (fun ch => !(ch == '.'))),
              e'.mtime ≤ e.mtime)
  ∧ (∀ c, c ≠ [] → logoMatches st.logos c = [] →
        getCompanyLogo st c false = .notFound)
  ∧ (∀ c e rest, c ≠ [] → logoMatches st.logos c = e :: rest →
        getCompanyLogo st c false = .served e.name) := by
  have hfile_eq : ∀ st' param',
      getCompanyLogoFile st' param'
        = (match logoMatches st'.logos (param'.takeWhile (fun c => !(c == '.'))) with
          | [] => Response.notFound
          | files =>
              match jsSortBy (fun a b : LogoEntry => b.mtime ≤ a.mtime) files with
              | [] => Response.notFound
              | e :: _ => Response.served e.name) := fun _ _ => rfl
  refine ⟨?_, ?_, ?_, ?_, ?_⟩
  · intro hm
    rw [hfile_eq, hm]
  · intro e hm
    rw [hfile_eq, hm]
    rfl
  · intro hm
    cases hmm : logoMatches st.logos (param.takeWhile (fun ch => !(ch == '.'))) with
    | nil => exact absurd hmm hm
    | cons a rest =>
        have hperm : (jsSortBy (fun x y : LogoEntry => y.mtime ≤ x.mtime)
            (a :: rest)).Perm (a :: rest) := jsSortBy_perm _ _
        have hpw : (jsSortBy (fun x y : LogoEntry => y.mtime ≤ x.mtime)
            (a :: rest)).Pairwise
            (fun x y => (fun x y : LogoEntry => decide (y.mtime ≤ x.mtime)) x y = true) := by
          apply jsSortBy_pairwise
          · intro x y
            rcases Nat.le_total x.mtime y.mtime with h | h
            · right; simpa using h
            · left; simpa using h
          · intro x y z hxy hyz
            simp only [decide_eq_true_eq] at *
            omega
        cases hs : jsSortBy (fun x y : LogoEntry => y.mtime ≤ x.mtime) (a :: rest) with
        | nil =>
            exact absurd (hs ▸ hperm).symm (by simp)
        | cons e es =>
            refine ⟨e, ?_, ?_, ?_⟩
            · exact (hs ▸ hperm).mem_iff.mp (List.mem_cons_self e es)
            · rw [hfile_eq, hmm]
              dsimp only
              rw [hs]
            · intro e' he'
              have he'' : e' ∈ e :: es := (hs ▸ hperm).mem_iff.mpr he'
              rcases List.mem_cons.mp he'' with rfl | he3
              · exact le_rfl
              · have := List.rel_of_pairwise_cons (hs ▸ hpw) he3
                simpa using this
  · intro c hc hm
    unfold getCompanyLogo
    rw [if_neg hc, hm]
  · intro c e rest hc hm
    unfold getCompanyLogo
    rw [if_neg hc, hm]
    rfl

/-- Witness for the amended C4 at `c4State`: the file route serves the
most recent duplicate, while the authenticated route serves the first
directory entry. -/
theorem claim_C4_logo_fetch_amended_witness :
    (∃ e ∈ logoMatches c4State.logos (("C1".toList).takeWhile (fun ch => !(ch == '.'))),
        getCompanyLogoFile c4State ("C1".toList) = .served e.name
        ∧ ∀ e' ∈ logoMatches c4State.logos (("C1".toList).takeWhile (fun ch => !(ch == '.'))),
            e'.mtime ≤ e.mtime)
    ∧ getCompanyLogo c4State ("C1".toList) false = .served ("logo-C1.png".toList) :=
  ⟨(claim_C4_logo_fetch_amended c4State ("C1".toList)).2.2.1 (by decide),
   (claim_C4_logo_fetch_amended c4State ("C1".toList)).2.2.2.2 ("C1".toList)
      ⟨"logo-C1.png".toList, 5, .bin⟩ [⟨"logo-C1.webp".toList, 9, .bin⟩]
      (by decide) (by decide)⟩

theorem json_isSuffixOf_append (x : Str) :
    ((".json".toList).isSuffixOf (x ++ ".json".toList)) = true :=
  List.isSuffixOf_iff_suffix.mpr (List.suffix_append x (".json".toList))

theorem upsertLogo_of_not_mem (l : List LogoEntry) (n : Str) (m : Nat)
    (c : LogoContent) (h : ∀ e ∈ l, e.name ≠ n) :
    upsertLogo l n m c = l ++ [⟨n, m, c⟩] := by
  induction l with
  | nil => rfl
  | cons e es ih =>
      rw [upsertLogo, if_neg (h e (List.mem_cons_self e es)),
        ih (fun x hx => h x (List.mem_cons_of_mem e hx)), List.cons_append]

theorem lookupLogo_append_singleton (l : List LogoEntry) (n : Str) (m : Nat)
    (c : LogoContent) (h : ∀ e ∈ l, e.name ≠ n) :
    lookupLogo (l ++ [⟨n, m, c⟩]) n = some c := by
  induction l with
  | nil => simp [lookupLogo, List.find?]
  | cons e es ih =>
      have hne : (e.name == n) = false := by
        simpa using h e (List.mem_cons_self e es)
      rw [List.cons_append]
      simp only [lookupLogo, List.find?, hne]
      exact ih (fun x hx => h x (List.mem_cons_of_mem e hx))

theorem logoStem_not_prefixOf_temp (c : Str) (t : Nat) (o : Str) :
    ((logoStem c).isPrefixOf (logoTempFilename t o)) = false := by
  have h1 : logoStem c = 'l' :: ("ogo-".toList ++ c) := rfl
  have h2 : logoTempFilename t o
      = 't' :: ("emp-".toList ++ (numToStr t ++ extname o)) := rfl
  rw [h1, h2]
  exact not_isPrefixOf_of_head_ne _ _ _ _ (by decide)

theorem postCompanyLogo_effect (st : ServerState) (r : LogoUploadIn) (c : Str)
    (hc : r.companyId = some c) (hcne : c ≠ [])
    (hmime : ALLOWED_MIME_TYPES.contains r.mimetype = true)
    (hext : ((".json".toList).isSuffixOf (logoStem c ++ extname r.originalname))
      = false) :
    (postCompanyLogo st r).1 = .okLogo (logoMetaOf r c)
  ∧ logoMatches (postCompanyLogo st r).2.logos c
      = [⟨logoStem c ++ extname r.originalname, r.now, .bin⟩]
  ∧ lookupLogo (postCompanyLogo st r).2.logos (logoStem c ++ ".json".toList)
      = some (.metaJson (logoMetaOf r c)) := by
  have hj : jsTruthy r.companyId = true := by
    rw [hc]
    simpa [jsTruthy] using hcne
  have hguard : postCompanyLogo st r
      = (.okLogo (logoMetaOf r c),
          { st with
              logos := upsertLogo
                ((((upsertLogo st.logos (stagingKeyOf r) r.now .bin).filter
                    (fun e => !((logoStem c).isPrefixOf e.name))).filter
                      (fun e => !(e.name == stagingKeyOf r)))
                  ++ [⟨logoStem c ++ extname r.originalname, r.now, .bin⟩])
                (logoStem c ++ ".json".toList) r.now (.metaJson (logoMetaOf r c)),
              cache := upsertAssoc st.cache ("company-logo-".toList ++ c)
                (.logo (logoMetaOf r c)) }) := by
    unfold postCompanyLogo
    rw [hc] at hj ⊢
    simp only [hmime, hj, Bool.not_true, Bool.false_eq_true, if_false,
      Option.getD_some]
  set front : List LogoEntry :=
    (((upsertLogo st.logos (stagingKeyOf r) r.now .bin).filter
        (fun e => !((logoStem c).isPrefixOf e.name))).filter
          (fun e => !(e.name == stagingKeyOf r))) with hfront
  have hfrontpref : ∀ e ∈ front, ((logoStem c).isPrefixOf e.name) = false := by
    intro e he
    rw [hfront] at he
    have := (List.mem_filter.mp (List.mem_filter.mp he).1).2
    simpa using this
  have hnewjson : logoStem c ++ extname r.originalname ≠ logoStem c ++ ".json".toList := by
    intro hcon
    have hx := List.append_cancel_left hcon
    rw [hx] at hext
    rw [json_isSuffixOf_append (logoStem c)] at hext
    cases hext
  have hfrontjson : ∀ e ∈ front ++ [(⟨logoStem c ++ extname r.originalname, r.now,
      .bin⟩ : LogoEntry)], e.name ≠ logoStem c ++ ".json".toList := by
    intro e he
    rcases List.mem_append.mp he with hf | hl
    · intro hcon
      have := hfrontpref e hf
      rw [hcon] at this
      rw [show ((logoStem c).isPrefixOf (logoStem c ++ ".json".toList)) = true from
        isPrefixOf_append_self _ _] at this
      cases this
    · rcases List.mem_singleton.mp hl with rfl
      exact hnewjson
  have hlogos : (postCompanyLogo st r).2.logos
      = (front ++ [⟨logoStem c ++ extname r.originalname, r.now, .bin⟩])
        ++ [⟨logoStem c ++ ".json".toList, r.now, .metaJson (logoMetaOf r c)⟩] := by
    rw [hguard]
    exact upsertLogo_of_not_mem _ _ _ _ hfrontjson
  refine ⟨by rw [hguard], ?_, ?_⟩
  · rw [hlogos]
    unfold logoMatches
    rw [List.filter_append, List.filter_append]
    have h1 : front.filter (fun e =>
        (logoStem c).isPrefixOf e.name && !((".json".toList).isSuffixOf e.name)) = [] := by
      rw [List.filter_eq_nil_iff]
      intro e he
      rw [hfrontpref e he]
      simp
    have hext' : ((['.', 'j', 's', 'o', 'n'] : Str).isSuffixOf
        (logoStem c ++ extname r.originalname)) = false := hext
    have hsuf : ((['.', 'j', 's', 'o', 'n'] : Str).isSuffixOf
        (logoStem c ++ (['.', 'j', 's', 'o', 'n'] : Str))) = true :=
      json_isSuffixOf_append _
    have h2 : ([(⟨logoStem c ++ extname r.originalname, r.now, .bin⟩ : LogoEntry)]).filter
        (fun e => (logoStem c).isPrefixOf e.name
          && !((".json".toList).isSuffixOf e.name)) =
        [⟨logoStem c ++ extname r.originalname, r.now, .bin⟩] := by
      simp [List.filter, isPrefixOf_append_self, hext, hext']
    have h3 : ([(⟨logoStem c ++ ".json".toList, r.now,
        .metaJson (logoMetaOf r c)⟩ : LogoEntry)]).filter
        (fun e => (logoStem c).isPrefixOf e.name
          && !((".json".toList).isSuffixOf e.name)) = [] := by
      simp [List.filter, json_isSuffixOf_append, hsuf]
    rw [h1, h2, h3]
    simp
  · rw [hlogos]
    exact lookupLogo_append_singleton _ _ _ _ hfrontjson

/-- A logo upload whose original name has extension `.json`: the canonical
name collides with the metadata document's name. -/
def c7Bad : LogoUploadIn :=
  { companyId := some ("C1".toList), originalname := "a.json".toList,
    mimetype := "image/png".toList, size := 5, tempStamp := 1,
    freshId := "u1".toList, now := 3 }

/-- Counterexample to C7 as stated: a single successful logo upload whose
original name is `a.json` (an allowed image MIME type, untrusted name) ends
with ZERO objects matching the tenant's logo prefix — the metadata write to
`logo-C1.json` overwrites the just-renamed binary — not exactly one. -/
theorem claim_C7_counterexample :
    (postCompanyLogo emptyState c7Bad).1 = .okLogo (logoMetaOf c7Bad ("C1".toList))
    ∧ logoMatches (postCompanyLogo emptyState c7Bad).2.logos ("C1".toList) = [] := by
  decide

/-- C7 as amended: after N ≥ 1 sequential logo uploads for the same tenant
(each with an allowed MIME type), provided the Nth upload's canonical file
name `logo-companyId + extension` does not end in `.json`, exactly one
object matches the tenant's logo prefix — the Nth upload's file — and the
metadata fetch reflects the Nth upload's attributes. -/
theorem claim_C7_logo_idempotent_amended (st : ServerState) (c : Str)
    (hcne : c ≠ []) (ins : List LogoUploadIn) (hne : ins ≠ [])
    (hall : ∀ r ∈ ins, r.companyId = some c
        ∧ ALLOWED_MIME_TYPES.contains r.mimetype = true)
    (hext : ((".json".toList).isSuffixOf
        (logoStem c ++ extname (ins.getLast hne).originalname)) = false) :
    logoMatches ((ins.foldl (fun s r => (postCompanyLogo s r).2) st).logos) c
      = [⟨logoStem c ++ extname (ins.getLast hne).originalname,
          (ins.getLast hne).now, .bin⟩]
  ∧ lookupLogo ((ins.foldl (fun s r => (postCompanyLogo s r).2) st).logos)
        (logoStem c ++ ".json".toList)
      = some (.metaJson (logoMetaOf (ins.getLast hne) c))
  ∧ getCompanyLogo (ins.foldl (fun s r => (postCompanyLogo s r).2) st) c true
      = .okLogoMeta (some (logoMetaOf (ins.getLast hne) c))
          ("/api/media/company-logo/".toList ++ c ++ "/file".toList) := by
  have hsplit : ins.foldl (fun s r => (postCompanyLogo s r).2) st
      = (postCompanyLogo
          (ins.dropLast.foldl (fun s r => (postCompanyLogo s r).2) st)
          (ins.getLast hne)).2 := by
    conv_lhs => rw [← List.dropLast_append_getLast hne]
    rw [List.foldl_append]
    rfl
  have heff := postCompanyLogo_effect
    (ins.dropLast.foldl (fun s r => (postCompanyLogo s r).2) st)
    (ins.getLast hne) c ((hall _ (List.getLast_mem hne)).1) hcne
    ((hall _ (List.getLast_mem hne)).2) hext
  rw [hsplit]
  refine ⟨heff.2.1, heff.2.2, ?_⟩
  unfold getCompanyLogo
  rw [if_neg hcne, heff.2.1]
  dsimp only
  rw [heff.2.2]
  rfl

/-- First witness upload for C7. -/
def c7a : LogoUploadIn :=
  { companyId := some ("C1".toList), originalname := "a.png".toList,
    mimetype := "image/png".toList, size := 5, tempStamp := 1,
    freshId := "u1".toList, now := 3 }

/-- Second witness upload for C7. -/
def c7b : LogoUploadIn :=
  { companyId := some ("C1".toList), originalname := "b.webp".toList,
    mimetype := "image/webp".toList, size := 6, tempStamp := 2,
    freshId := "u2".toList, now := 4 }

/-- Witness for the amended C7: two sequential uploads for `C1` leave exactly
one matching object, the second upload's `logo-C1.webp`. -/
theorem claim_C7_logo_idempotent_amended_witness :
    logoMatches ((([c7a, c7b] : List LogoUploadIn).foldl
          (fun s r => (postCompanyLogo s r).2) emptyState).logos) ("C1".toList)
      = [⟨logoStem ("C1".toList)
            ++ extname (([c7a, c7b] : List LogoUploadIn).getLast (by decide)).originalname,
          (([c7a, c7b] : List LogoUploadIn).getLast (by decide)).now, .bin⟩] :=
  (claim_C7_logo_idempotent_amended emptyState ("C1".toList) (by decide)
    [c7a, c7b] (by decide) (by decide) (by decide)).1

/-- Two distinct logo upload requests arriving in the same `Date.now()`
millisecond with equal extensions. -/
def c8a : LogoUploadIn :=
  { companyId := some ("C1".toList), originalname := "a.png".toList,
    mimetype := "image/png".toList, size := 1, tempStamp := 42,
    freshId := "u1".toList, now := 1 }

/-- See `c8a`: a different request (other tenant, other file) with the same
millisecond timestamp. -/
def c8b : LogoUploadIn :=
  { companyId := some ("C2".toList), originalname := "b.png".toList,
    mimetype := "image/png".toList, size := 2, tempStamp := 42,
    freshId := "u2".toList, now := 1 }

/-- Counterexample to C8 as stated: two DISTINCT logo upload requests whose
`Date.now()` fell in the same millisecond and whose files share an extension
receive the SAME staging key `temp-42.png` — the staging key embeds a
timestamp, not a fresh identifier, so it can collide. -/
theorem claim_C8_counterexample :
    c8a ≠ c8b ∧ stagingKeyOf c8a = stagingKeyOf c8b := by decide

theorem extname_extLike (s : Str) :
    extname s = [] ∨ ∃ t, extname s = '.' :: t := by
  unfold extname
  dsimp only
  split
  · exact Or.inl rfl
  · split
    · exact Or.inl rfl
    · exact Or.inr ⟨_, rfl⟩

theorem digitRun_append_inj : ∀ (d1 d2 e1 e2 : Str),
    (∀ ch ∈ d1, ch.isDigit = true) → (∀ ch ∈ d2, ch.isDigit = true) →
    (e1 = [] ∨ ∃ t, e1 = '.' :: t) → (e2 = [] ∨ ∃ t, e2 = '.' :: t) →
    d1 ++ e1 = d2 ++ e2 → d1 = d2
  | [], [], _, _, _, _, _, _, _ => rfl
  | [], b :: bs, e1, e2, _, hd2, he1, _, h => by
      exfalso
      simp only [List.nil_append] at h
      rcases he1 with he | ⟨t, he⟩
      · rw [he] at h
        cases h
      · rw [he] at h
        have hb : b = '.' := by
          have := congrArg (fun l => l.headD ' ') h
          simpa using this.symm
        have hdig := hd2 b (List.mem_cons_self b bs)
        rw [hb] at hdig
        cases hdig
  | a :: as, [], e1, e2, hd1, _, _, he2, h => by
      exfalso
      simp only [List.nil_append] at h
      rcases he2 with he | ⟨t, he⟩
      · rw [he] at h
        cases h
      · rw [he] at h
        have ha : a = '.' := by
          have := congrArg (fun l => l.headD ' ') h
          simpa using this
        have hdig := hd1 a (List.mem_cons_self a as)
        rw [ha] at hdig
        cases hdig
  | a :: as, b :: bs, e1, e2, hd1, hd2, he1, he2, h => by
      simp only [List.cons_append, List.cons.injEq] at h
      rcases h with ⟨hab, hrest⟩
      subst hab
      rw [digitRun_append_inj as bs e1 e2
        (fun ch hch => hd1 ch (List.mem_cons_of_mem a hch))
        (fun ch hch => hd2 ch (List.mem_cons_of_mem a hch)) he1 he2 hrest]

/-- C8 as amended: the staging key embeds the request's `Date.now()`
millisecond timestamp and the file extension; two logo upload requests whose
timestamps differ always receive distinct staging keys (only same-millisecond
requests can collide, as the counterexample shows). -/
theorem claim_C8_staging_key_amended (r1 r2 : LogoUploadIn)
    (h : r1.tempStamp ≠ r2.tempStamp) : stagingKeyOf r1 ≠ stagingKeyOf r2 := by
  intro heq
  unfold stagingKeyOf logoTempFilename at heq
  rw [List.append_assoc, List.append_assoc] at heq
  have heq2 := List.append_cancel_left heq
  exact h (numToStr_inj (digitRun_append_inj _ _ _ _
    (numToStr_isDigit r1.tempStamp) (numToStr_isDigit r2.tempStamp)
    (extname_extLike r1.originalname) (extname_extLike r2.originalname) heq2))

/-- Witness for the amended C8: requests in different milliseconds get
different staging keys even with different extensions. -/
theorem claim_C8_staging_key_amended_witness :
    stagingKeyOf c7a ≠ stagingKeyOf c7b :=
  claim_C8_staging_key_amended c7a c7b (by decide)

end ImageService
